import Mathlib

/-!
Verification of the Ecommerce-Analytics customer pipeline.

This file shallowly embeds the Python sources:
  * `src/data_processor.py` (`CustomerDataProcessor`): record transformation,
    email-domain extraction, quality scoring, and quality-based deduplication;
  * `src/api_client.py` (`CustomerAPIClient`): the retry/backoff request loop
    and the paginated `fetch_all_customers`;
  * `src/exporter.py` (`DataExporter`): stable case-insensitive sorting and
    the quality-bucket summary report.

Python dicts keyed by customer id are modelled as insertion-ordered
association lists; the global random generator is modelled as an explicit
choice oracle `rng : List String → String`; HTTP traffic is modelled as a
script mapping attempt numbers to scripted outcomes, and `time.sleep` as a
trace of the requested wait durations — recording a non-negative wait, and
raising `ValueError` (as `time.sleep` does, outside any `try` in the source)
on a negative one.
-/

/-! ## Python string/int primitives used by the sources -/

/-- Python `str.strip()` (on the ASCII whitespace the records contain). -/
def pyStrip (s : String) : String :=
  String.mk (((s.data.dropWhile Char.isWhitespace).reverse.dropWhile
    Char.isWhitespace).reverse)

/-- Python `str.lower()` (on ASCII letters). -/
def pyLower (s : String) : String :=
  String.mk (s.data.map fun c =>
    if 'A' ≤ c && c ≤ 'Z' then Char.ofNat (c.toNat + 32) else c)

/-- ASCII letter test, the `[A-Za-z]` character class of the host regex. -/
def isAsciiLetter (c : Char) : Bool :=
  ('A' ≤ c && c ≤ 'Z') || ('a' ≤ c && c ≤ 'z')

/-- The `[A-Za-z0-9.-]` character class of the host regex. -/
def isHostChar (c : Char) : Bool :=
  isAsciiLetter c || c.isDigit || c = '.' || c = '-'

/-- Digit run with Python's single-underscore grouping (`int("1_0") = 10`),
after the first digit has been consumed. -/
def pyDigitsAux (acc : Nat) : List Char → Option Nat
  | [] => some acc
  | '_' :: c :: rest =>
      if c.isDigit then pyDigitsAux (acc * 10 + (c.toNat - '0'.toNat)) rest
      else none
  | c :: rest =>
      if c.isDigit then pyDigitsAux (acc * 10 + (c.toNat - '0'.toNat)) rest
      else none

/-- An unsigned Python integer literal body: at least one digit, underscores
only between digits. -/
def pyDigits : List Char → Option Nat
  | c :: rest => if c.isDigit then pyDigitsAux (c.toNat - '0'.toNat) rest else none
  | [] => none

/-- Python `int(s)` for strings: optional surrounding whitespace, optional
sign, digits (with underscore grouping). `none` models `ValueError`. -/
def pyParseInt (s : String) : Option Int :=
  let cs := (s.data.dropWhile Char.isWhitespace).reverse.dropWhile Char.isWhitespace
  match cs.reverse with
  | '+' :: rest => (pyDigits rest).map (fun n => (n : Int))
  | '-' :: rest => (pyDigits rest).map (fun n => -(n : Int))
  | rest => (pyDigits rest).map (fun n => (n : Int))

/-! ## Data model (`data_processor.py`) -/

/-- A raw customer record as consumed by `_transform_customer`: the fields it
reads via `raw.get`. `none` models an absent key (or JSON `null`). -/
structure RawRecord where
  id : Option Int
  first_name : Option String
  last_name : Option String
  email : Option String
deriving DecidableEq, Repr

/-- The five randomly enriched fields of a transformed record. -/
structure Enrichment where
  engagement_level : String
  activity_status : String
  acquisition_channel : String
  market_segment : String
  customer_tier : String
deriving DecidableEq, Repr

/-- The dict built by `_transform_customer`. -/
structure NormalizedRecord where
  customer_id : Option Int
  full_name : String
  email_domain : String
  enrichment : Enrichment
  data_quality_score : Int
deriving DecidableEq, Repr

def ENGAGEMENT_LEVELS : List String := ["high", "medium", "low"]

def ACTIVITY_STATUSES : List String := ["active", "inactive"]

def ACQUISITION_CHANNELS : List String := ["website", "mobile_app", "email_campaign"]

def MARKET_SEGMENTS : List String := ["US-West", "US-East", "EU-Central", "APAC"]

def CUSTOMER_TIERS : List String := ["basic", "premium", "enterprise"]

/-! ## Email-domain extraction (`_extract_domain`)

`re.match(r".+@([A-Za-z0-9.-]+\.[A-Za-z]{2,})$", email)`: `.+` is one or more
non-newline characters, the group runs to `$` (end of string, or just before
one trailing newline).  Since neither `.` nor the group's character class
matches a newline, a match exists iff, after stripping one trailing newline,
the string is newline-free and splits at its last `@` into a nonempty local
part and a domain matching `[A-Za-z0-9.-]+\.[A-Za-z]{2,}` exactly. -/

/-- Python `$` semantics: strip at most one trailing newline. -/
def stripTrailingNewline (cs : List Char) : List Char :=
  if cs.getLast? = some '\n' then cs.dropLast else cs

/-- Split a character list at its last `'@'`; `none` when there is none. -/
def splitLastAt : List Char → Option (List Char × List Char)
  | [] => none
  | c :: rest =>
      match splitLastAt rest with
      | some (a, b) => some (c :: a, b)
      | none => if c = '@' then some ([], rest) else none

/-- Whole-string match of `[A-Za-z0-9.-]+\.[A-Za-z]{2,}`: some dot splits the
string into a nonempty host-char prefix and an all-letter suffix of length
at least 2. -/
def matchesHostTail (cs : List Char) : Bool :=
  (List.range cs.length).any fun i =>
    cs.getD i ' ' = '.' && decide (1 ≤ i) && (cs.take i).all isHostChar
      && decide (2 ≤ cs.length - (i + 1)) && (cs.drop (i + 1)).all isAsciiLetter

/-- `re.match(r".+@([A-Za-z0-9.-]+\.[A-Za-z]{2,})$", e)` returning `group(1)`. -/
def regexExtract (e : String) : Option String :=
  if '\n' ∈ stripTrailingNewline e.data then none
  else
    match splitLastAt (stripTrailingNewline e.data) with
    | none => none
    | some (loc, dom) =>
        if loc ≠ [] ∧ matchesHostTail dom then some (String.mk dom) else none

/-- `CustomerDataProcessor._extract_domain`; the `Option` input models that
`raw.get("email", "")` may produce `None` (falsy, like `""`). -/
def extract_domain (email : Option String) : String :=
  match email with
  | none => "unknown"
  | some e =>
      if e = "" ∨ '@' ∉ e.data then "unknown"
      else
        match regexExtract e with
        | some d => d
        | none => "unknown"

/-! ## Record transformation (`_transform_customer`) -/

/-- The `full_name` computed by `_transform_customer`. -/
def full_name_of (raw : RawRecord) : String :=
  let first_name := pyStrip (raw.first_name.getD "")
  let last_name := pyStrip (raw.last_name.getD "")
  if first_name ≠ "" || last_name ≠ "" then pyStrip (first_name ++ " " ++ last_name)
  else "Unknown"

/-- The `data_quality_score` computed by `_transform_customer`: start at 100,
deduct 10 when `not email_domain or email_domain == "unknown"`, deduct 10 when
`full_name == "Unknown"`. -/
def quality_score_of (raw : RawRecord) : Int :=
  let email_domain := extract_domain raw.email
  let q1 : Int := 100
  let q2 := if email_domain = "" || email_domain = "unknown" then q1 - 10 else q1
  if full_name_of raw = "Unknown" then q2 - 10 else q2

/-- `CustomerDataProcessor._random_or_unknown`, with the process-wide random
generator abstracted as a choice oracle `rng`. -/
def random_or_unknown (rng : List String → String) (choices : List String) : String :=
  if choices ≠ [] then rng choices else "unknown"

/-- `CustomerDataProcessor._transform_customer`. -/
def transform_customer (rng : List String → String) (raw : RawRecord) : NormalizedRecord :=
  { customer_id := raw.id
    full_name := full_name_of raw
    email_domain := extract_domain raw.email
    enrichment :=
      { engagement_level := random_or_unknown rng ENGAGEMENT_LEVELS
        activity_status := random_or_unknown rng ACTIVITY_STATUSES
        acquisition_channel := random_or_unknown rng ACQUISITION_CHANNELS
        market_segment := random_or_unknown rng MARKET_SEGMENTS
        customer_tier := random_or_unknown rng CUSTOMER_TIERS }
    data_quality_score := quality_score_of raw }

/-! ## Deduplication (`process_customers`)

The Python `seen` dict is an insertion-ordered association list: updating an
existing key replaces its value in place, a new key is appended. -/

/-- `seen[cid]` lookup (`cid in seen` is `dictGet seen cid ≠ none`). -/
def dictGet (seen : List (Option Int × NormalizedRecord)) (k : Option Int) :
    Option NormalizedRecord :=
  match seen with
  | [] => none
  | (k', v) :: rest => if k' = k then some v else dictGet rest k

/-- `seen[cid] = customer`: in-place update of an existing key, else append. -/
def dictSet (seen : List (Option Int × NormalizedRecord)) (k : Option Int)
    (v : NormalizedRecord) : List (Option Int × NormalizedRecord) :=
  match seen with
  | [] => [(k, v)]
  | (k', v') :: rest =>
      if k' = k then (k', v) :: rest else (k', v') :: dictSet rest k v

/-- One iteration of the `process_customers` loop. -/
def dedupeStep (rng : List String → String)
    (seen : List (Option Int × NormalizedRecord)) (raw : RawRecord) :
    List (Option Int × NormalizedRecord) :=
  let customer := transform_customer rng raw
  let cid := customer.customer_id
  match dictGet seen cid with
  | none => dictSet seen cid customer
  | some old =>
      if old.data_quality_score < customer.data_quality_score then
        dictSet seen cid customer
      else seen

/-- `CustomerDataProcessor.process_customers`: fold the dedupe loop and return
`list(seen.values())`. -/
def process_customers (rng : List String → String) (raw_customers : List RawRecord) :
    List NormalizedRecord :=
  (raw_customers.foldl (dedupeStep rng) []).map Prod.snd

/-! ## Exporter (`exporter.py`)

`export_customers` and `generate_summary_report` read their input dicts via
`c.get("full_name")` / `c.get("data_quality_score", 0)`, so the exporter's
input records carry optional fields. -/

/-- A customer dict as read by `DataExporter`. -/
structure ExportRecord where
  full_name : Option String
  data_quality_score : Option Int
deriving DecidableEq, Repr

/-- The sort key `(c.get("full_name") or "").lower()`; `or ""` turns both a
missing key (`None`) and an empty string into `""`. -/
def sort_key (c : ExportRecord) : String :=
  pyLower
    (match c.full_name with
     | some s => if s ≠ "" then s else ""
     | none => "")

/-- Insert after all existing elements with a key not greater: the insertion
step of a stable ascending sort, as Python's `sorted` guarantees. -/
def insortRight (x : ExportRecord) : List ExportRecord → List ExportRecord
  | [] => [x]
  | y :: ys => if sort_key x < sort_key y then x :: y :: ys else y :: insortRight x ys

/-- Python's stable `sorted(customers, key=sort_key)`. -/
def pySorted (customers : List ExportRecord) : List ExportRecord :=
  customers.foldl (fun acc x => insortRight x acc) []

/-- `DataExporter._quality_bucket`. -/
def quality_bucket (score : Int) : String :=
  if score ≥ 90 then "high_quality"
  else if score ≥ 70 then "medium_quality"
  else "low_quality"

/-- The three bucket counters of `generate_summary_report`. -/
structure QualityCounts where
  high_quality : Nat
  medium_quality : Nat
  low_quality : Nat
deriving DecidableEq, Repr

/-- `counts[bucket] += 1` (the bucket name is always one of the three keys). -/
def addBucket (c : QualityCounts) (b : String) : QualityCounts :=
  if b = "high_quality" then { c with high_quality := c.high_quality + 1 }
  else if b = "medium_quality" then { c with medium_quality := c.medium_quality + 1 }
  else if b = "low_quality" then { c with low_quality := c.low_quality + 1 }
  else c

/-- The report dict of `generate_summary_report`; the timestamp comes from
`datetime.now` and is passed in as `now`. -/
structure SummaryReport where
  total_customers : Nat
  export_timestamp : String
  data_quality_summary : QualityCounts
deriving DecidableEq, Repr

/-- `DataExporter.generate_summary_report` (on a non-`None` customers list). -/
def generate_summary_report (now : String) (customers : List ExportRecord) :
    SummaryReport :=
  { total_customers := customers.length
    export_timestamp := now
    data_quality_summary :=
      customers.foldl
        (fun counts c => addBucket counts (quality_bucket (c.data_quality_score.getD 0)))
        ⟨0, 0, 0⟩ }

/-- The JSON payload written by `export_customers`. -/
structure ExportPayload where
  metadata : SummaryReport
  customers : List ExportRecord
deriving DecidableEq, Repr

/-- `DataExporter.export_customers`, up to serialization: sort, build the
metadata from the sorted list, and assemble the payload. -/
def export_payload (now : String) (customers : List ExportRecord) : ExportPayload :=
  let sorted_customers := pySorted customers
  { metadata := generate_summary_report now sorted_customers
    customers := sorted_customers }

/-! ## API client (`api_client.py`)

The HTTP session is modelled as a script assigning to each attempt number the
outcome `requests.Session.get` would produce; `time.sleep` is modelled by
recording the requested wait in a trace. -/

/-- The `APIClientError` exception's data. -/
structure APIClientError where
  message : String
  url : Option String
  status_code : Option Nat
  retries : Nat
deriving DecidableEq, Repr

/-- `APIClientError.__str__`. -/
def strAPIClientError (e : APIClientError) : String :=
  let base := "APIClientError: " ++ e.message
  let base :=
    match e.url with
    | some u => if u ≠ "" then base ++ " | URL: " ++ u else base
    | none => base
  let base :=
    match e.status_code with
    | some s => base ++ " | Status: " ++ toString s
    | none => base
  if e.retries ≠ 0 then base ++ " | Retries: " ++ toString e.retries else base

/-- What `last_exc` can hold: an `APIClientError` or a transport-level
`requests.RequestException` (carrying its message). -/
inductive LastErr where
  | api (e : APIClientError)
  | net (msg : String)
deriving DecidableEq, Repr

/-- A JSON scalar as `page.get("total_pages")` can produce it. -/
inductive PyVal where
  | none
  | int (n : Int)
  | str (s : String)
deriving DecidableEq, Repr

/-- Python truthiness of a `PyVal`. -/
def pyTruthy : PyVal → Bool
  | .none => false
  | .int n => n ≠ 0
  | .str s => s ≠ ""

/-- Python `a or b`. -/
def pyOr (a b : PyVal) : PyVal := if pyTruthy a then a else b

/-- Python `int(v)`; `none` models the `ValueError`/`TypeError` it raises. -/
def pyIntOf : PyVal → Option Int
  | .int n => some n
  | .str s => pyParseInt s
  | .none => Option.none

/-- A page body as read by `fetch_all_customers`: its `data` list (`none` for
an absent or `null` key) and its `total_pages` value (`PyVal.none` for an
absent key). -/
structure PageJson where
  data : Option (List RawRecord)
  total_pages : PyVal
deriving DecidableEq, Repr

/-- The outcome of one `session.get` call: a raised `RequestException`, or a
response with status, optional `Retry-After` header, a body (`none` when
`resp.json()` would raise `ValueError`), and `resp.text`. -/
inductive Attempt where
  | netError (msg : String)
  | response (status : Nat) (retryAfter : Option String) (body : Option PageJson)
      (text : String)
deriving Repr

/-- The client configuration after `__init__`. -/
structure ClientCfg where
  max_retries : Nat
  backoff : List Int
deriving DecidableEq, Repr

def DEFAULT_MAX_RETRIES : Nat := 3

def DEFAULT_BACKOFF : List Int := [1, 2, 4]

/-- `self.backoff = backoff or self.DEFAULT_BACKOFF`. -/
def mkClient (max_retries : Nat) (backoff : Option (List Int)) : ClientCfg :=
  { max_retries
    backoff :=
      match backoff with
      | some l => if l ≠ [] then l else DEFAULT_BACKOFF
      | Option.none => DEFAULT_BACKOFF }

/-- The wait of `_sleep_for_attempt`: `backoff[min(attempt - 1, len - 1)]`. -/
def sleep_for_attempt (cfg : ClientCfg) (attempt : Nat) : Int :=
  cfg.backoff.getD (min (attempt - 1) (cfg.backoff.length - 1)) 0

/-- The wait chosen by the 429 branch: an integer `Retry-After` header wins,
otherwise (absent, empty, or unparseable header) the backoff-table wait. -/
def wait429 (cfg : ClientCfg) (retryAfter : Option String) (attempt : Nat) : Int :=
  match retryAfter with
  | some ra =>
      if ra ≠ "" then
        match pyParseInt ra with
        | some n => n
        | none => sleep_for_attempt cfg attempt
      else sleep_for_attempt cfg attempt
  | none => sleep_for_attempt cfg attempt

/-- The error raised once the retry loop exhausts all attempts. -/
def exhaustedError (cfg : ClientCfg) (url : String) : Option LastErr → APIClientError
  | some (.api e) => ⟨strAPIClientError e, e.url, e.status_code, cfg.max_retries⟩
  | some (.net m) =>
      ⟨"Failed to fetch " ++ url ++ " after " ++ toString cfg.max_retries
        ++ " attempts: " ++ m, some url, Option.none, cfg.max_retries⟩
  | Option.none =>
      ⟨"Failed to fetch " ++ url ++ " after " ++ toString cfg.max_retries
        ++ " attempts", some url, Option.none, cfg.max_retries⟩

/-- An exception escaping `_request` or `fetch_all_customers`: a raised
`APIClientError`, or an uncaught `ValueError` — from `time.sleep` on a
negative wait (the sleep calls sit outside any `try`), or from `int(...)` on
a truthy non-numeric `total_pages`.  Both propagate verbatim. -/
inductive FetchErr where
  | api (e : APIClientError)
  | valueError
deriving DecidableEq, Repr

/-- The `for attempt in range(1, max_retries + 1)` loop of `_request`, with
`remaining` attempts left, the accumulated `last_exc`, and the sleep trace.
Returns the result, the full sleep trace, and the number of attempts made.
Each `time.sleep(w)` appends `w` to the trace when `0 ≤ w`; a negative wait
(e.g. a `Retry-After` header parsing to a negative integer) makes
`time.sleep` raise `ValueError`, terminating the loop on that attempt with
nothing slept. -/
def requestGo (cfg : ClientCfg) (url : String) (script : Nat → Attempt) :
    Nat → Nat → Option LastErr → List Int →
    Except FetchErr PageJson × List Int × Nat
  | attempt, 0, lastExc, sleeps =>
      (.error (.api (exhaustedError cfg url lastExc)), sleeps, attempt - 1)
  | attempt, remaining + 1, _lastExc, sleeps =>
      match script attempt with
      | .netError msg =>
          if sleep_for_attempt cfg attempt < 0 then
            (.error .valueError, sleeps, attempt)
          else
            requestGo cfg url script (attempt + 1) remaining (some (.net msg))
              (sleeps ++ [sleep_for_attempt cfg attempt])
      | .response status retryAfter body text =>
          if status = 200 then
            match body with
            | some j => (.ok j, sleeps, attempt)
            | none =>
                (.error (.api ⟨"Invalid JSON from " ++ url, some url, some 200,
                  attempt⟩), sleeps, attempt)
          else if status = 429 then
            if wait429 cfg retryAfter attempt < 0 then
              (.error .valueError, sleeps, attempt)
            else
              requestGo cfg url script (attempt + 1) remaining
                (some (.api ⟨"429 Too Many Requests", some url, some 429, attempt⟩))
                (sleeps ++ [wait429 cfg retryAfter attempt])
          else if 500 ≤ status ∧ status < 600 then
            if sleep_for_attempt cfg attempt < 0 then
              (.error .valueError, sleeps, attempt)
            else
              requestGo cfg url script (attempt + 1) remaining
                (some (.api ⟨toString status ++ " server error", some url, some status,
                  attempt⟩))
                (sleeps ++ [sleep_for_attempt cfg attempt])
          else if 400 ≤ status ∧ status < 500 then
            (.error (.api ⟨"Client error " ++ toString status ++ " for " ++ url ++ ": "
              ++ text, some url, some status, attempt⟩), sleeps, attempt)
          else
            if sleep_for_attempt cfg attempt < 0 then
              (.error .valueError, sleeps, attempt)
            else
              requestGo cfg url script (attempt + 1) remaining
                (some (.api ⟨"Unexpected status " ++ toString status, some url,
                  some status, attempt⟩))
                (sleeps ++ [sleep_for_attempt cfg attempt])

/-- `CustomerAPIClient._request` on a scripted session. -/
def request (cfg : ClientCfg) (url : String) (script : Nat → Attempt) :
    Except FetchErr PageJson × List Int × Nat :=
  requestGo cfg url script 1 cfg.max_retries Option.none []

/-- `range(2, total_pages + 1)` as a list of page numbers. -/
def pageRange (total_pages : Int) : List Nat :=
  (List.range (total_pages - 1).toNat).map (· + 2)

/-- The `for p in range(2, total_pages + 1)` accumulation loop of
`fetch_all_customers`; `script p` scripts the attempts of page `p`. -/
def fetchPages (cfg : ClientCfg) (url : String) (script : Nat → Nat → Attempt) :
    List Nat → List RawRecord → Except FetchErr (List RawRecord)
  | [], acc => .ok acc
  | p :: rest, acc =>
      match (request cfg url (script p)).1 with
      | .error e => .error e
      | .ok j => fetchPages cfg url script rest (acc ++ j.data.getD [])

/-- `CustomerAPIClient.fetch_all_customers`: fetch page 1, read
`int(first.get("total_pages") or 1)`, then accumulate pages `2..total_pages`. -/
def fetch_all_customers (cfg : ClientCfg) (url : String)
    (script : Nat → Nat → Attempt) : Except FetchErr (List RawRecord) :=
  match (request cfg url (script 1)).1 with
  | .error e => .error e
  | .ok first =>
      let data := first.data.getD []
      match pyIntOf (pyOr first.total_pages (.int 1)) with
      | Option.none => .error .valueError
      | some total_pages => fetchPages cfg url script (pageRange total_pages) data

/-! ## Field lemmas for `transform_customer` -/

@[simp] theorem transform_customer_id (rng : List String → String) (raw : RawRecord) :
    (transform_customer rng raw).customer_id = raw.id := rfl

@[simp] theorem transform_full_name (rng : List String → String) (raw : RawRecord) :
    (transform_customer rng raw).full_name = full_name_of raw := rfl

@[simp] theorem transform_email_domain (rng : List String → String) (raw : RawRecord) :
    (transform_customer rng raw).email_domain = extract_domain raw.email := rfl

@[simp] theorem transform_score (rng : List String → String) (raw : RawRecord) :
    (transform_customer rng raw).data_quality_score = quality_score_of raw := rfl

/-! ## The extracted domain is never the empty string -/

theorem matchesHostTail_ne_nil {cs : List Char} (h : matchesHostTail cs = true) :
    cs ≠ [] := by
  intro hnil
  subst hnil
  simp [matchesHostTail] at h

theorem regexExtract_ne_empty {e d : String} (h : regexExtract e = some d) :
    d ≠ "" := by
  unfold regexExtract at h
  by_cases hnl : '\n' ∈ stripTrailingNewline e.data
  · rw [if_pos hnl] at h
    exact absurd h (by simp)
  · rw [if_neg hnl] at h
    cases hsp : splitLastAt (stripTrailingNewline e.data) with
    | none =>
        simp only [hsp] at h
        exact absurd h (by simp)
    | some p =>
        obtain ⟨loc, dom⟩ := p
        simp only [hsp] at h
        by_cases hc : loc ≠ [] ∧ matchesHostTail dom = true
        · rw [if_pos hc] at h
          have hd : String.mk dom = d := by simpa using h
          intro hcontra
          apply matchesHostTail_ne_nil hc.2
          have hdata : (String.mk dom).data = ("" : String).data := by
            rw [hd, hcontra]
          simpa using hdata
        · rw [if_neg hc] at h
          exact absurd h (by simp)

theorem extract_domain_ne_empty (email : Option String) : extract_domain email ≠ "" := by
  cases email with
  | none => simp [extract_domain]
  | some e =>
      show (if e = "" ∨ '@' ∉ e.data then "unknown"
        else match regexExtract e with | some d => d | none => "unknown") ≠ ""
      split
      · simp
      · cases hre : regexExtract e with
        | none => simp [hre]
        | some d =>
            simp only [hre]
            exact regexExtract_ne_empty hre

/-! ## C9: the non-enrichment fields of `transform` are deterministic -/

/-- C9: for a fixed raw record, any two runs of `transform_customer` (any two
randomness oracles) agree on `customer_id`, `email_domain`, `full_name` and
`data_quality_score`; only the enrichment fields depend on the randomness. -/
theorem transform_deterministic (rng₁ rng₂ : List String → String) (raw : RawRecord) :
    (transform_customer rng₁ raw).customer_id = (transform_customer rng₂ raw).customer_id
    ∧ (transform_customer rng₁ raw).email_domain
        = (transform_customer rng₂ raw).email_domain
    ∧ (transform_customer rng₁ raw).full_name = (transform_customer rng₂ raw).full_name
    ∧ (transform_customer rng₁ raw).data_quality_score
        = (transform_customer rng₂ raw).data_quality_score :=
  ⟨rfl, rfl, rfl, rfl⟩

/-! ## C6: the quality-score formula -/

/-- C6: `data_quality_score` is 100 minus 10 when the computed `email_domain`
is `"unknown"` minus 10 when the computed `full_name` is `"Unknown"`, hence
always in `{100, 90, 80}`; an absent/empty email, an email without `@`, or a
domain failing the host-pattern regex gives `email_domain = "unknown"` and
costs 10 points. -/
theorem quality_score_formula (rng : List String → String) (raw : RawRecord) :
    ((transform_customer rng raw).data_quality_score
        = 100 - (if (transform_customer rng raw).email_domain = "unknown" then 10 else 0)
            - (if (transform_customer rng raw).full_name = "Unknown" then 10 else 0))
    ∧ ((transform_customer rng raw).data_quality_score = 100
        ∨ (transform_customer rng raw).data_quality_score = 90
        ∨ (transform_customer rng raw).data_quality_score = 80)
    ∧ (raw.email = Option.none → (transform_customer rng raw).email_domain = "unknown")
    ∧ (∀ e, raw.email = some e →
        (e = "" ∨ '@' ∉ e.data ∨ regexExtract e = Option.none) →
        (transform_customer rng raw).email_domain = "unknown"
          ∧ (transform_customer rng raw).data_quality_score ≤ 90) := by
  simp only [transform_email_domain, transform_full_name, transform_score]
  have hne := extract_domain_ne_empty raw.email
  have hscore : quality_score_of raw
      = 100 - (if extract_domain raw.email = "unknown" then 10 else 0)
          - (if full_name_of raw = "Unknown" then 10 else 0) := by
    unfold quality_score_of
    rcases eq_or_ne (extract_domain raw.email) "unknown" with hu | hu <;>
      rcases eq_or_ne (full_name_of raw) "Unknown" with hn | hn <;>
      simp [hu, hn, hne]
  have hdom : ∀ e, raw.email = some e →
      (e = "" ∨ '@' ∉ e.data ∨ regexExtract e = Option.none) →
      extract_domain raw.email = "unknown" := by
    intro e he hcases
    rw [he]
    show (if e = "" ∨ '@' ∉ e.data then "unknown"
      else match regexExtract e with | some d => d | none => "unknown") = "unknown"
    rcases hcases with h | h | h
    · rw [if_pos (Or.inl h)]
    · rw [if_pos (Or.inr h)]
    · by_cases h0 : e = "" ∨ '@' ∉ e.data
      · rw [if_pos h0]
      · rw [if_neg h0]
        simp only [h]
  refine ⟨hscore, ?_, ?_, ?_⟩
  · rw [hscore]
    rcases eq_or_ne (extract_domain raw.email) "unknown" with hu | hu <;>
      rcases eq_or_ne (full_name_of raw) "Unknown" with hn | hn <;>
      simp [hu, hn]
  · intro he
    rw [he]
    rfl
  · intro e he hcases
    refine ⟨hdom e he hcases, ?_⟩
    rw [hscore, hdom e he hcases, if_pos rfl]
    split <;> omega

/-! ## C8: the summary report counts partition the total -/

theorem addBucket_quality (counts : QualityCounts) (s : Int) :
    addBucket counts (quality_bucket s)
      = if 90 ≤ s then { counts with high_quality := counts.high_quality + 1 }
        else if 70 ≤ s then { counts with medium_quality := counts.medium_quality + 1 }
        else { counts with low_quality := counts.low_quality + 1 } := by
  by_cases h1 : 90 ≤ s
  · simp [quality_bucket, addBucket, ge_iff_le, h1]
  · by_cases h2 : 70 ≤ s
    · simp [quality_bucket, addBucket, ge_iff_le, h1, h2]
    · simp [quality_bucket, addBucket, ge_iff_le, h1, h2]

theorem foldBuckets_high (customers : List ExportRecord) : ∀ init : QualityCounts,
    (customers.foldl (fun counts c =>
        addBucket counts (quality_bucket (c.data_quality_score.getD 0))) init).high_quality
      = init.high_quality
          + customers.countP (fun c => 90 ≤ c.data_quality_score.getD 0) := by
  induction customers with
  | nil => intro init; simp
  | cons c rest ih =>
      intro init
      simp only [List.foldl_cons, List.countP_cons, decide_eq_true_eq]
      rw [ih, addBucket_quality]
      split_ifs <;> (simp; try omega)

theorem foldBuckets_medium (customers : List ExportRecord) : ∀ init : QualityCounts,
    (customers.foldl (fun counts c =>
        addBucket counts (quality_bucket (c.data_quality_score.getD 0))) init).medium_quality
      = init.medium_quality
          + customers.countP (fun c =>
              70 ≤ c.data_quality_score.getD 0 ∧ c.data_quality_score.getD 0 < 90) := by
  induction customers with
  | nil => intro init; simp
  | cons c rest ih =>
      intro init
      simp only [List.foldl_cons, List.countP_cons, decide_eq_true_eq]
      rw [ih, addBucket_quality]
      split_ifs <;> (simp; try omega)

theorem foldBuckets_low (customers : List ExportRecord) : ∀ init : QualityCounts,
    (customers.foldl (fun counts c =>
        addBucket counts (quality_bucket (c.data_quality_score.getD 0))) init).low_quality
      = init.low_quality
          + customers.countP (fun c => c.data_quality_score.getD 0 < 70) := by
  induction customers with
  | nil => intro init; simp
  | cons c rest ih =>
      intro init
      simp only [List.foldl_cons, List.countP_cons, decide_eq_true_eq]
      rw [ih, addBucket_quality]
      split_ifs <;> (simp; try omega)

theorem countP_score_partition (l : List ExportRecord) :
    l.countP (fun c => 90 ≤ c.data_quality_score.getD 0)
      + l.countP (fun c =>
          70 ≤ c.data_quality_score.getD 0 ∧ c.data_quality_score.getD 0 < 90)
      + l.countP (fun c => c.data_quality_score.getD 0 < 70) = l.length := by
  induction l with
  | nil => simp
  | cons c rest ih =>
      simp only [List.countP_cons, List.length_cons, decide_eq_true_eq]
      split_ifs <;> omega

/-- C8: `generate_summary_report` returns `total_customers = length`, buckets
by score (`>=90` high, `70..89` medium, `<70` low), and the three bucket
counts partition the total exactly. -/
theorem summary_report_partitions (now : String) (customers : List ExportRecord) :
    ((generate_summary_report now customers).total_customers = customers.length)
    ∧ ((generate_summary_report now customers).data_quality_summary.high_quality
        = customers.countP (fun c => 90 ≤ c.data_quality_score.getD 0))
    ∧ ((generate_summary_report now customers).data_quality_summary.medium_quality
        = customers.countP (fun c =>
            70 ≤ c.data_quality_score.getD 0 ∧ c.data_quality_score.getD 0 < 90))
    ∧ ((generate_summary_report now customers).data_quality_summary.low_quality
        = customers.countP (fun c => c.data_quality_score.getD 0 < 70))
    ∧ ((generate_summary_report now customers).data_quality_summary.high_quality
        + (generate_summary_report now customers).data_quality_summary.medium_quality
        + (generate_summary_report now customers).data_quality_summary.low_quality
        = (generate_summary_report now customers).total_customers) := by
  have e1 := foldBuckets_high customers ⟨0, 0, 0⟩
  have e2 := foldBuckets_medium customers ⟨0, 0, 0⟩
  have e3 := foldBuckets_low customers ⟨0, 0, 0⟩
  simp only [Nat.zero_add] at e1 e2 e3
  refine ⟨rfl, e1, e2, e3, ?_⟩
  show _ + _ + _ = customers.length
  rw [show (generate_summary_report now customers).data_quality_summary
      = customers.foldl (fun counts c =>
          addBucket counts (quality_bucket (c.data_quality_score.getD 0))) ⟨0, 0, 0⟩
    from rfl]
  rw [e1, e2, e3]
  exact countP_score_partition customers

/-! ## C3/C4: classification of 4xx and 429 responses in `_request` -/

/-- C3: a 4xx status other than 429 is terminal: `_request` raises
immediately on that attempt with the status code and the response body text;
no further attempt and no sleep happens, whatever retry budget remains. -/
theorem client_error_terminal (cfg : ClientCfg) (url : String) (script : Nat → Attempt)
    (attempt remaining : Nat) (lastExc : Option LastErr) (sleeps : List Int)
    (status : Nat) (retryAfter : Option String) (body : Option PageJson) (text : String)
    (hs : script attempt = .response status retryAfter body text)
    (h400 : 400 ≤ status) (h500 : status < 500) (h429 : status ≠ 429) :
    requestGo cfg url script attempt (remaining + 1) lastExc sleeps
      = (.error (.api ⟨"Client error " ++ toString status ++ " for " ++ url ++ ": "
          ++ text, some url, some status, attempt⟩), sleeps, attempt) := by
  have h200 : status ≠ 200 := by omega
  have h5xx : ¬(500 ≤ status ∧ status < 600) := by omega
  have h4xx : 400 ≤ status ∧ status < 500 := ⟨h400, h500⟩
  simp only [requestGo, hs]
  rw [if_neg h200, if_neg h429, if_neg h5xx, if_pos h4xx]

/-- C4 (amended): on a 429 the client computes the wait — the integer value
of a parseable `Retry-After` header, otherwise the backoff-table wait.  When
that wait is non-negative it sleeps exactly that long and proceeds to the
next attempt (the 429 itself is never terminal); but when `Retry-After`
parses to a negative integer, `time.sleep(wait)` — outside the `try` —
raises `ValueError`, which terminates the request on that attempt with
nothing slept and no retry. -/
theorem rate_limit_retries (cfg : ClientCfg) (url : String) (script : Nat → Attempt)
    (attempt remaining : Nat) (lastExc : Option LastErr) (sleeps : List Int)
    (retryAfter : Option String) (body : Option PageJson) (text : String)
    (hs : script attempt = .response 429 retryAfter body text) :
    (0 ≤ wait429 cfg retryAfter attempt →
      requestGo cfg url script attempt (remaining + 1) lastExc sleeps
        = requestGo cfg url script (attempt + 1) remaining
            (some (.api ⟨"429 Too Many Requests", some url, some 429, attempt⟩))
            (sleeps ++ [wait429 cfg retryAfter attempt]))
    ∧ (wait429 cfg retryAfter attempt < 0 →
      requestGo cfg url script attempt (remaining + 1) lastExc sleeps
        = (.error .valueError, sleeps, attempt))
    ∧ (∀ ra n, retryAfter = some ra → pyParseInt ra = some n →
        wait429 cfg retryAfter attempt = n)
    ∧ ((∀ ra, retryAfter = some ra → pyParseInt ra = Option.none) →
        wait429 cfg retryAfter attempt = sleep_for_attempt cfg attempt) := by
  refine ⟨?_, ?_, ?_, ?_⟩
  · intro hpos
    have hneg : ¬(wait429 cfg retryAfter attempt < 0) := by omega
    simp [requestGo, hs, hneg]
  · intro hneg
    simp [requestGo, hs, hneg]
  · intro ra n hra hparse
    subst hra
    have hne : ra ≠ "" := by
      intro h0
      rw [h0, show pyParseInt "" = Option.none from by decide] at hparse
      exact Option.noConfusion hparse
    simp only [wait429, if_pos hne, hparse]
  · intro hra
    cases hcase : retryAfter with
    | none => simp [wait429]
    | some ra =>
        by_cases hne : ra ≠ ""
        · simp only [wait429, if_pos hne, hra ra hcase]
        · simp only [wait429, if_neg hne]

/-! ## Concrete clients and scripts for the scenario witnesses -/

def cfgDefault : ClientCfg := mkClient DEFAULT_MAX_RETRIES Option.none

def urlUsers : String := "https://reqres.in/api/users"

def rawOne : RawRecord :=
  { id := some 1, first_name := Option.none, last_name := Option.none
    email := Option.none }

def rawTwo : RawRecord :=
  { id := some 2, first_name := Option.none, last_name := Option.none
    email := Option.none }

def pageOne : PageJson := { data := some [rawOne], total_pages := .int 1 }

/-- The spec's terminal scenario: every attempt answers HTTP 404. -/
def script404 : Nat → Attempt := fun _ => .response 404 Option.none Option.none "Not found"

/-- The spec's rate-limit scenario: a 429 with `Retry-After: 1`, then a 200. -/
def script429 : Nat → Attempt := fun a =>
  if a = 1 then .response 429 (some "1") Option.none ""
  else .response 200 Option.none (some pageOne) ""

/-- The rate-limit scenario with a negative hint: a 429 with
`Retry-After: -1`, then a 200 that is never reached. -/
def script429neg : Nat → Attempt := fun a =>
  if a = 1 then .response 429 (some "-1") Option.none ""
  else .response 200 Option.none (some pageOne) ""

/-- Witness for C3 at the spec's terminal scenario: a 404 on the first attempt
raises `ClientError` with status 404, body text, no sleeps, one attempt. -/
theorem client_error_terminal_witness :
    request cfgDefault urlUsers script404
      = (.error (.api ⟨"Client error 404 for https://reqres.in/api/users: Not found",
          some "https://reqres.in/api/users", some 404, 1⟩), [], 1) := by
  have h := client_error_terminal cfgDefault urlUsers script404 1 2 Option.none []
    404 Option.none Option.none "Not found" rfl (by decide) (by decide) (by decide)
  exact h

/-- Counterexample to C4 as stated: a 429 with `Retry-After: -1` (parseable
as the integer -1) followed by an available 200.  Instead of sleeping -1
seconds and retrying to success, the request terminates on the first attempt
with the `ValueError` raised by `time.sleep(-1)`, nothing slept. -/
theorem rate_limit_retries_counterexample :
    request cfgDefault urlUsers script429neg = (.error .valueError, [], 1)
    ∧ request cfgDefault urlUsers script429neg ≠ (.ok pageOne, [-1], 2) := by
  refine ⟨rfl, ?_⟩
  intro h
  rw [show request cfgDefault urlUsers script429neg
      = (.error .valueError, [], 1) from rfl] at h
  exact absurd (congrArg Prod.fst h) (by simp)

/-- Witness for the amended C4: `Retry-After: 1` then 200 sleeps exactly 1
second (not the backoff value) and succeeds, while `Retry-After: -1` is
terminal with the `ValueError` and no sleep. -/
theorem rate_limit_retries_witness :
    request cfgDefault urlUsers script429 = (.ok pageOne, [1], 2)
    ∧ wait429 cfgDefault (some "1") 1 = 1
    ∧ request cfgDefault urlUsers script429neg = (.error .valueError, [], 1) := by
  have h := rate_limit_retries cfgDefault urlUsers script429 1 2 Option.none []
    (some "1") Option.none "" rfl
  have hn := rate_limit_retries cfgDefault urlUsers script429neg 1 2 Option.none []
    (some "-1") Option.none "" rfl
  refine ⟨?_, h.2.2.1 "1" 1 rfl (by decide), ?_⟩
  · show requestGo cfgDefault urlUsers script429 1 (2 + 1) Option.none [] = _
    rw [h.1 (by decide)]
    rfl
  · show requestGo cfgDefault urlUsers script429neg 1 (2 + 1) Option.none [] = _
    exact hn.2.1 (by decide)

/-! ## C2/C5: pagination -/

/-- Concatenation of the scripted pages' `data` lists, in page order. -/
def concatData (jp : Nat → PageJson) : List Nat → List RawRecord
  | [] => []
  | p :: rest => (jp p).data.getD [] ++ concatData jp rest

theorem fetchPages_ok (cfg : ClientCfg) (url : String) (script : Nat → Nat → Attempt)
    (jp : Nat → PageJson) :
    ∀ (ps : List Nat) (acc : List RawRecord),
      (∀ p ∈ ps, (request cfg url (script p)).1 = .ok (jp p)) →
      fetchPages cfg url script ps acc = .ok (acc ++ concatData jp ps) := by
  intro ps
  induction ps with
  | nil =>
      intro acc _
      simp [fetchPages, concatData]
  | cons p rest ih =>
      intro acc hp
      have h1 : (request cfg url (script p)).1 = .ok (jp p) := hp p (by simp)
      simp only [fetchPages, h1, concatData]
      rw [ih (acc ++ (jp p).data.getD []) (fun q hq => hp q (by simp [hq]))]
      simp

theorem mem_pageRange {p : Nat} {t : Int} (h : p ∈ pageRange t) :
    2 ≤ p ∧ (p : Int) ≤ t := by
  unfold pageRange at h
  simp only [List.mem_map, List.mem_range] at h
  obtain ⟨i, hi, rfl⟩ := h
  constructor
  · omega
  · omega

/-- C2 (amended): a falsy `total_pages` on page 1 (absent/null, `0`, or the
empty string) is treated as a page count of 1 and only page 1's data is
returned; a truthy non-numeric `total_pages` instead makes
`fetch_all_customers` fail with the `ValueError` of `int(...)`. -/
theorem total_pages_default (cfg : ClientCfg) (url : String)
    (script : Nat → Nat → Attempt) (j : PageJson)
    (h1 : (request cfg url (script 1)).1 = .ok j) :
    (pyTruthy j.total_pages = false →
      fetch_all_customers cfg url script = .ok (j.data.getD []))
    ∧ (∀ s, j.total_pages = .str s → s ≠ "" → pyParseInt s = Option.none →
        fetch_all_customers cfg url script = .error .valueError) := by
  constructor
  · intro hfalsy
    unfold fetch_all_customers
    simp only [h1]
    simp [pyOr, hfalsy, pyIntOf, pageRange, fetchPages]
  · intro s hs hne hparse
    unfold fetch_all_customers
    simp only [h1]
    have htr : pyTruthy j.total_pages = true := by
      rw [hs]
      simpa [pyTruthy] using hne
    simp only [pyOr, htr, if_true]
    rw [hs]
    simp [pyIntOf, hparse]

def scriptBadTotalPages : Nat → Nat → Attempt := fun _ _ =>
  .response 200 Option.none
    (some { data := some [rawOne], total_pages := .str "soon" }) ""

def scriptNoTotalPages : Nat → Nat → Attempt := fun _ _ =>
  .response 200 Option.none
    (some { data := some [rawOne], total_pages := .none }) ""

/-- Counterexample to C2 as stated: page 1 succeeds but carries the
non-numeric `total_pages` value `"soon"`; `fetch_all_customers` raises the
`ValueError` of `int("soon")` instead of treating the page count as 1 and
returning page 1's data. -/
theorem total_pages_default_counterexample :
    fetch_all_customers cfgDefault urlUsers scriptBadTotalPages = .error .valueError
    ∧ fetch_all_customers cfgDefault urlUsers scriptBadTotalPages ≠ .ok [rawOne] := by
  refine ⟨rfl, ?_⟩
  intro h
  rw [show fetch_all_customers cfgDefault urlUsers scriptBadTotalPages
      = .error .valueError from rfl] at h
  exact Except.noConfusion h

/-- Witness for the amended C2: an absent `total_pages` yields page 1's data,
and the `"soon"` value yields the `ValueError`. -/
theorem total_pages_default_witness :
    fetch_all_customers cfgDefault urlUsers scriptNoTotalPages = .ok [rawOne]
    ∧ fetch_all_customers cfgDefault urlUsers scriptBadTotalPages
        = .error .valueError := by
  constructor
  · exact (total_pages_default cfgDefault urlUsers scriptNoTotalPages
      { data := some [rawOne], total_pages := .none } rfl).1 rfl
  · exact (total_pages_default cfgDefault urlUsers scriptBadTotalPages
      { data := some [rawOne], total_pages := .str "soon" } rfl).2 "soon" rfl
      (by decide) (by decide)

/-- C5: when page 1 succeeds with `total_pages = tp ≥ 1` and every page
`2..tp` succeeds, `fetch_all_customers` returns exactly page 1's data followed
by the later pages' data lists in page order, preserving within-page order
and duplicates. -/
theorem fetch_all_concatenates (cfg : ClientCfg) (url : String)
    (script : Nat → Nat → Attempt) (j1 : PageJson) (tp : Nat) (jp : Nat → PageJson)
    (h1 : (request cfg url (script 1)).1 = .ok j1)
    (htp : j1.total_pages = .int (tp : Int)) (hpos : 1 ≤ tp)
    (hp : ∀ p, 2 ≤ p → p ≤ tp → (request cfg url (script p)).1 = .ok (jp p)) :
    fetch_all_customers cfg url script
      = .ok (j1.data.getD [] ++ concatData jp (pageRange (tp : Int))) := by
  unfold fetch_all_customers
  simp only [h1]
  have htr : pyTruthy j1.total_pages = true := by
    rw [htp]
    simp only [pyTruthy]
    simp
    omega
  simp only [pyOr, htr, if_true]
  rw [htp]
  simp only [pyIntOf]
  refine fetchPages_ok cfg url script jp (pageRange (tp : Int)) (j1.data.getD []) ?_
  intro p hpmem
  obtain ⟨h2, hle⟩ := mem_pageRange hpmem
  refine hp p h2 ?_
  exact_mod_cast hle

def scriptTwoPages : Nat → Nat → Attempt := fun p _ =>
  if p = 1 then
    .response 200 Option.none
      (some { data := some [rawOne], total_pages := .int 2 }) ""
  else
    .response 200 Option.none
      (some { data := some [rawTwo], total_pages := .int 2 }) ""

/-- Witness for C5 at the spec's fetch scenario: page 1 with `total_pages=2`
and `data=[{id:1}]`, page 2 with `data=[{id:2}]`, yields `[{id:1},{id:2}]`. -/
theorem fetch_all_concatenates_witness :
    fetch_all_customers cfgDefault urlUsers scriptTwoPages = .ok [rawOne, rawTwo] := by
  have h := fetch_all_concatenates cfgDefault urlUsers scriptTwoPages
    { data := some [rawOne], total_pages := .int 2 } 2
    (fun _ => { data := some [rawTwo], total_pages := .int 2 })
    rfl rfl (by decide)
    (fun p h2 hle => by
      have hp2 : p = 2 := by omega
      subst hp2
      rfl)
  simpa using h

/-! ## C7: the exported customers list is stably sorted by the name key -/

theorem mem_insortRight {x y : ExportRecord} {l : List ExportRecord}
    (h : y ∈ insortRight x l) : y = x ∨ y ∈ l := by
  induction l with
  | nil => simpa [insortRight] using h
  | cons z zs ih =>
      simp only [insortRight] at h
      split at h
      · rcases List.mem_cons.mp h with rfl | h'
        · exact Or.inl rfl
        · exact Or.inr h'
      · rcases List.mem_cons.mp h with rfl | h'
        · exact Or.inr (List.mem_cons_self _ _)
        · rcases ih h' with rfl | h''
          · exact Or.inl rfl
          · exact Or.inr (List.mem_cons_of_mem _ h'')

theorem pairwise_insortRight {x : ExportRecord} {l : List ExportRecord}
    (hl : l.Pairwise (fun a b => sort_key a ≤ sort_key b)) :
    (insortRight x l).Pairwise (fun a b => sort_key a ≤ sort_key b) := by
  induction l with
  | nil => simp [insortRight]
  | cons z zs ih =>
      obtain ⟨hz, hzs⟩ := List.pairwise_cons.mp hl
      simp only [insortRight]
      split
      · rename_i hlt
        refine List.Pairwise.cons ?_ hl
        intro b hb
        rcases List.mem_cons.mp hb with rfl | hb'
        · exact le_of_lt hlt
        · exact le_trans (le_of_lt hlt) (hz b hb')
      · rename_i hnlt
        refine List.Pairwise.cons ?_ (ih hzs)
        intro b hb
        rcases mem_insortRight hb with rfl | hb'
        · exact le_of_not_lt hnlt
        · exact hz b hb'

theorem filter_insortRight (x : ExportRecord) (l : List ExportRecord) (k : String)
    (hl : l.Pairwise (fun a b => sort_key a ≤ sort_key b)) :
    (insortRight x l).filter (fun c => sort_key c = k)
      = if sort_key x = k then l.filter (fun c => sort_key c = k) ++ [x]
        else l.filter (fun c => sort_key c = k) := by
  induction l with
  | nil =>
      by_cases hxk : sort_key x = k <;> simp [insortRight, List.filter_cons, hxk]
  | cons z zs ih =>
      obtain ⟨hz, hzs⟩ := List.pairwise_cons.mp hl
      simp only [insortRight]
      split
      · rename_i hlt
        by_cases hxk : sort_key x = k
        · have hempty : (z :: zs).filter (fun c => sort_key c = k) = [] := by
            rw [List.filter_eq_nil_iff]
            intro a ha
            have hge : sort_key z ≤ sort_key a := by
              rcases List.mem_cons.mp ha with rfl | ha'
              · exact le_refl _
              · exact hz a ha'
            have hk : k < sort_key a := lt_of_lt_of_le (hxk ▸ hlt) hge
            simp [(ne_of_lt hk).symm]
          simp [List.filter_cons, hxk, hempty]
        · simp [List.filter_cons, hxk]
      · rename_i hnlt
        by_cases hzk : sort_key z = k <;> by_cases hxk : sort_key x = k <;>
          simp [List.filter_cons, hzk, hxk, ih hzs]

theorem pySorted_pairwise (l : List ExportRecord) :
    (pySorted l).Pairwise (fun a b => sort_key a ≤ sort_key b) := by
  suffices h : ∀ acc : List ExportRecord,
      acc.Pairwise (fun a b => sort_key a ≤ sort_key b) →
      (l.foldl (fun acc x => insortRight x acc) acc).Pairwise
        (fun a b => sort_key a ≤ sort_key b) from h [] (by simp)
  induction l with
  | nil => intro acc hacc; simpa using hacc
  | cons c rest ih =>
      intro acc hacc
      simp only [List.foldl_cons]
      exact ih _ (pairwise_insortRight hacc)

theorem pySorted_filter (l : List ExportRecord) (k : String) :
    (pySorted l).filter (fun c => sort_key c = k)
      = l.filter (fun c => sort_key c = k) := by
  suffices h : ∀ acc : List ExportRecord,
      acc.Pairwise (fun a b => sort_key a ≤ sort_key b) →
      (l.foldl (fun acc x => insortRight x acc) acc).filter (fun c => sort_key c = k)
        = acc.filter (fun c => sort_key c = k)
            ++ l.filter (fun c => sort_key c = k) from by
    simpa using h [] (by simp)
  induction l with
  | nil => intro acc _; simp
  | cons c rest ih =>
      intro acc hacc
      simp only [List.foldl_cons]
      rw [ih (insortRight c acc) (pairwise_insortRight hacc),
        filter_insortRight c acc k hacc, List.filter_cons]
      by_cases hck : sort_key c = k <;> simp [hck]

/-- C7: the `customers` list of the exported payload is sorted ascending by
`full_name` case-insensitively (a missing or empty name sorts as the empty
string), and for every key value the filtered subsequence equals the input's,
i.e. ties keep first-in-first-out order. -/
theorem export_sorted_stable (now : String) (customers : List ExportRecord) :
    ((export_payload now customers).customers.Pairwise
        (fun a b => sort_key a ≤ sort_key b))
    ∧ (∀ k : String,
        (export_payload now customers).customers.filter (fun c => sort_key c = k)
          = customers.filter (fun c => sort_key c = k)) := by
  constructor
  · exact pySorted_pairwise customers
  · intro k
    exact pySorted_filter customers k

/-! ## C1/C10: dedupe keeps one record per id, the first-encountered maximum

`runBest` replays the strict-improvement rule of the dedupe loop for a single
key against the remaining input; `firstEntry` locates the first record of a
key and runs `runBest` after it.  Together they characterise the dict entry a
key ends up with. -/

def runBest (rng : List String → String) (k : Option Int)
    (cur : NormalizedRecord) : List RawRecord → NormalizedRecord
  | [] => cur
  | r :: rest =>
      if r.id = k ∧ cur.data_quality_score < quality_score_of r then
        runBest rng k (transform_customer rng r) rest
      else runBest rng k cur rest

def firstEntry (rng : List String → String) (k : Option Int) :
    List RawRecord → Option NormalizedRecord
  | [] => none
  | r :: rest =>
      if r.id = k then some (runBest rng k (transform_customer rng r) rest)
      else firstEntry rng k rest

theorem dictGet_dictSet_self (seen : List (Option Int × NormalizedRecord))
    (k : Option Int) (v : NormalizedRecord) :
    dictGet (dictSet seen k v) k = some v := by
  induction seen with
  | nil => simp [dictSet, dictGet]
  | cons p rest ih =>
      obtain ⟨k', v'⟩ := p
      by_cases hk : k' = k <;> simp [dictSet, dictGet, hk, ih]

theorem dictGet_dictSet_ne (seen : List (Option Int × NormalizedRecord))
    (k k' : Option Int) (v : NormalizedRecord) (h : k' ≠ k) :
    dictGet (dictSet seen k v) k' = dictGet seen k' := by
  induction seen with
  | nil =>
      have hne : ¬(k = k') := fun he => h he.symm
      simp [dictSet, dictGet, hne]
  | cons p rest ih =>
      obtain ⟨k₀, v₀⟩ := p
      by_cases hk : k₀ = k
      · subst hk
        have hne : ¬(k₀ = k') := fun he => h he.symm
        simp [dictSet, dictGet, hne]
      · simp [dictSet, dictGet, hk, ih]

theorem dedupeStep_new (rng : List String → String)
    (seen : List (Option Int × NormalizedRecord)) (r : RawRecord)
    (h : dictGet seen r.id = none) :
    dedupeStep rng seen r = dictSet seen r.id (transform_customer rng r) := by
  unfold dedupeStep
  simp only [transform_customer_id, h]

theorem dedupeStep_improve (rng : List String → String)
    (seen : List (Option Int × NormalizedRecord)) (r : RawRecord)
    (old : NormalizedRecord) (h : dictGet seen r.id = some old)
    (hcmp : old.data_quality_score < quality_score_of r) :
    dedupeStep rng seen r = dictSet seen r.id (transform_customer rng r) := by
  unfold dedupeStep
  simp only [transform_customer_id, h, transform_score]
  rw [if_pos hcmp]

theorem dedupeStep_keep (rng : List String → String)
    (seen : List (Option Int × NormalizedRecord)) (r : RawRecord)
    (old : NormalizedRecord) (h : dictGet seen r.id = some old)
    (hcmp : ¬old.data_quality_score < quality_score_of r) :
    dedupeStep rng seen r = seen := by
  unfold dedupeStep
  simp only [transform_customer_id, h, transform_score]
  rw [if_neg hcmp]

theorem dedupeStep_get_ne (rng : List String → String)
    (seen : List (Option Int × NormalizedRecord)) (r : RawRecord) (k : Option Int)
    (h : k ≠ r.id) :
    dictGet (dedupeStep rng seen r) k = dictGet seen k := by
  cases hold : dictGet seen r.id with
  | none =>
      rw [dedupeStep_new rng seen r hold]
      exact dictGet_dictSet_ne seen r.id k _ h
  | some old =>
      by_cases hcmp : old.data_quality_score < quality_score_of r
      · rw [dedupeStep_improve rng seen r old hold hcmp]
        exact dictGet_dictSet_ne seen r.id k _ h
      · rw [dedupeStep_keep rng seen r old hold hcmp]

theorem foldl_dedupe_get (rng : List String → String) (raws : List RawRecord) :
    ∀ (seen : List (Option Int × NormalizedRecord)) (k : Option Int),
      dictGet (raws.foldl (dedupeStep rng) seen) k
        = match dictGet seen k with
          | some v => some (runBest rng k v raws)
          | none => firstEntry rng k raws := by
  induction raws with
  | nil =>
      intro seen k
      cases h : dictGet seen k <;> simp [runBest, firstEntry, h]
  | cons r rest ih =>
      intro seen k
      rw [List.foldl_cons, ih]
      by_cases hk : r.id = k
      · subst hk
        cases hold : dictGet seen r.id with
        | none =>
            rw [dedupeStep_new rng seen r hold, dictGet_dictSet_self]
            simp [firstEntry]
        | some old =>
            by_cases hcmp : old.data_quality_score < quality_score_of r
            · rw [dedupeStep_improve rng seen r old hold hcmp, dictGet_dictSet_self]
              simp [runBest, hcmp]
            · rw [dedupeStep_keep rng seen r old hold hcmp, hold]
              simp [runBest, hcmp]
      · rw [dedupeStep_get_ne rng seen r k (fun h => hk h.symm)]
        cases hget : dictGet seen k with
        | none => simp [firstEntry, hk]
        | some v => simp [runBest, hk]

theorem dictSet_keys_existing (seen : List (Option Int × NormalizedRecord))
    (k : Option Int) (v : NormalizedRecord) (h : dictGet seen k ≠ none) :
    (dictSet seen k v).map Prod.fst = seen.map Prod.fst := by
  induction seen with
  | nil => exact absurd rfl h
  | cons p rest ih =>
      obtain ⟨k₀, v₀⟩ := p
      by_cases hk : k₀ = k
      · simp [dictSet, hk]
      · have h' : dictGet rest k ≠ none := by
          simpa [dictGet, hk] using h
        simp [dictSet, hk, ih h']

theorem dictSet_keys_new (seen : List (Option Int × NormalizedRecord))
    (k : Option Int) (v : NormalizedRecord) (h : dictGet seen k = none) :
    (dictSet seen k v).map Prod.fst = seen.map Prod.fst ++ [k] := by
  induction seen with
  | nil => simp [dictSet]
  | cons p rest ih =>
      obtain ⟨k₀, v₀⟩ := p
      by_cases hk : k₀ = k
      · exact absurd h (by simp [dictGet, hk])
      · have h' : dictGet rest k = none := by
          simpa [dictGet, hk] using h
        simp [dictSet, hk, ih h']

theorem dictGet_eq_none_iff (seen : List (Option Int × NormalizedRecord))
    (k : Option Int) :
    dictGet seen k = none ↔ k ∉ seen.map Prod.fst := by
  induction seen with
  | nil => simp [dictGet]
  | cons p rest ih =>
      obtain ⟨k₀, v₀⟩ := p
      by_cases hk : k₀ = k
      · simp [dictGet, hk]
      · rw [show dictGet ((k₀, v₀) :: rest) k = dictGet rest k from by
          simp [dictGet, hk]]
        rw [ih]
        simp only [List.map_cons, List.mem_cons]
        constructor
        · intro h
          rintro (he | hm)
          · exact hk he.symm
          · exact h hm
        · intro h hm
          exact h (Or.inr hm)

theorem dedupeStep_keys (rng : List String → String)
    (seen : List (Option Int × NormalizedRecord)) (r : RawRecord) :
    (dedupeStep rng seen r).map Prod.fst
      = if dictGet seen r.id = none then seen.map Prod.fst ++ [r.id]
        else seen.map Prod.fst := by
  cases hold : dictGet seen r.id with
  | none =>
      rw [dedupeStep_new rng seen r hold, dictSet_keys_new seen r.id _ hold, if_pos rfl]
  | some old =>
      rw [if_neg (by simp)]
      by_cases hcmp : old.data_quality_score < quality_score_of r
      · rw [dedupeStep_improve rng seen r old hold hcmp]
        exact dictSet_keys_existing seen r.id _ (by simp [hold])
      · rw [dedupeStep_keep rng seen r old hold hcmp]

theorem foldl_dedupe_mem_keys (rng : List String → String) (raws : List RawRecord) :
    ∀ (seen : List (Option Int × NormalizedRecord)) (k : Option Int),
      k ∈ (raws.foldl (dedupeStep rng) seen).map Prod.fst
        ↔ k ∈ seen.map Prod.fst ∨ ∃ r ∈ raws, r.id = k := by
  induction raws with
  | nil =>
      intro seen k
      simp
  | cons r rest ih =>
      intro seen k
      rw [List.foldl_cons, ih, dedupeStep_keys]
      split
      · constructor
        · rintro (h | h)
          · rcases List.mem_append.mp h with h' | h'
            · exact Or.inl h'
            · refine Or.inr ⟨r, by simp, ?_⟩
              exact (List.mem_singleton.mp h').symm
          · obtain ⟨x, hx, hid⟩ := h
            exact Or.inr ⟨x, by simp [hx], hid⟩
        · rintro (h | ⟨x, hx, hid⟩)
          · exact Or.inl (List.mem_append.mpr (Or.inl h))
          · rcases List.mem_cons.mp hx with rfl | hx'
            · exact Or.inl (List.mem_append.mpr (Or.inr (by simp [hid])))
            · exact Or.inr ⟨x, hx', hid⟩
      · constructor
        · rintro (h | h)
          · exact Or.inl h
          · obtain ⟨x, hx, hid⟩ := h
            exact Or.inr ⟨x, by simp [hx], hid⟩
        · rintro (h | ⟨x, hx, hid⟩)
          · exact Or.inl h
          · rcases List.mem_cons.mp hx with rfl | hx'
            · rename_i hnotnone
              rw [dictGet_eq_none_iff] at hnotnone
              exact Or.inl (by simpa [hid] using not_not.mp hnotnone)
            · exact Or.inr ⟨x, hx', hid⟩

theorem foldl_dedupe_keys_nodup (rng : List String → String) (raws : List RawRecord) :
    ∀ (seen : List (Option Int × NormalizedRecord)),
      (seen.map Prod.fst).Nodup →
      ((raws.foldl (dedupeStep rng) seen).map Prod.fst).Nodup := by
  induction raws with
  | nil =>
      intro seen h
      simpa using h
  | cons r rest ih =>
      intro seen h
      rw [List.foldl_cons]
      refine ih _ ?_
      rw [dedupeStep_keys]
      split
      · rename_i hnone
        rw [dictGet_eq_none_iff] at hnone
        simp [List.nodup_append, h, hnone]
      · exact h

theorem foldl_dedupe_key_inv (rng : List String → String) (raws : List RawRecord) :
    ∀ (seen : List (Option Int × NormalizedRecord)),
      (∀ p ∈ seen, (Prod.snd p).customer_id = Prod.fst p) →
      ∀ p ∈ raws.foldl (dedupeStep rng) seen, (Prod.snd p).customer_id = Prod.fst p := by
  have hset : ∀ (seen : List (Option Int × NormalizedRecord)) (r : RawRecord),
      (∀ p ∈ seen, (Prod.snd p).customer_id = Prod.fst p) →
      ∀ p ∈ dictSet seen r.id (transform_customer rng r),
        (Prod.snd p).customer_id = Prod.fst p := by
    intro seen r hinv
    induction seen with
    | nil =>
        intro p hp
        rcases List.mem_singleton.mp hp with rfl
        simp
    | cons q rest ih =>
        obtain ⟨k₀, v₀⟩ := q
        intro p hp
        by_cases hk : k₀ = r.id
        · rw [show dictSet ((k₀, v₀) :: rest) r.id (transform_customer rng r)
              = (k₀, transform_customer rng r) :: rest from by simp [dictSet, hk]] at hp
          rcases List.mem_cons.mp hp with rfl | hp'
          · simp [hk]
          · exact hinv p (List.mem_cons_of_mem _ hp')
        · rw [show dictSet ((k₀, v₀) :: rest) r.id (transform_customer rng r)
              = (k₀, v₀) :: dictSet rest r.id (transform_customer rng r) from by
                simp [dictSet, hk]] at hp
          rcases List.mem_cons.mp hp with rfl | hp'
          · exact hinv (k₀, v₀) (by simp)
          · exact ih (fun q hq => hinv q (List.mem_cons_of_mem _ hq)) p hp'
  induction raws with
  | nil =>
      intro seen h
      simpa using h
  | cons r rest ih =>
      intro seen h
      rw [List.foldl_cons]
      refine ih _ ?_
      cases hold : dictGet seen r.id with
      | none =>
          rw [dedupeStep_new rng seen r hold]
          exact hset seen r h
      | some old =>
          by_cases hcmp : old.data_quality_score < quality_score_of r
          · rw [dedupeStep_improve rng seen r old hold hcmp]
            exact hset seen r h
          · rw [dedupeStep_keep rng seen r old hold hcmp]
            exact h

theorem countP_snd_assoc (k : Option Int) :
    ∀ (l : List (Option Int × NormalizedRecord)),
      (∀ p ∈ l, (Prod.snd p).customer_id = Prod.fst p) →
      ((l.map Prod.fst).Nodup) →
      (l.map Prod.snd).countP (fun c => c.customer_id = k)
        = if k ∈ l.map Prod.fst then 1 else 0 := by
  intro l
  induction l with
  | nil => simp
  | cons p rest ih =>
      obtain ⟨k₀, v₀⟩ := p
      intro hinv hnd
      have hv : v₀.customer_id = k₀ := hinv (k₀, v₀) (by simp)
      have hnd' : (rest.map Prod.fst).Nodup := (List.nodup_cons.mp hnd).2
      have hk₀ : k₀ ∉ rest.map Prod.fst := (List.nodup_cons.mp hnd).1
      have ihr := ih (fun q hq => hinv q (List.mem_cons_of_mem _ hq)) hnd'
      simp only [List.map_cons, List.countP_cons, ihr]
      by_cases hk : k₀ = k
      · subst hk
        have hnotmem : k₀ ∉ rest.map Prod.fst := hk₀
        simp [hv, hnotmem]
      · have hvk : ¬(v₀.customer_id = k) := by
          rw [hv]
          exact hk
        have hne : ¬(k = k₀) := fun he => hk he.symm
        simp only [List.map_cons, List.countP_cons, decide_eq_true_eq, if_neg hvk]
        by_cases hmem : k ∈ List.map Prod.fst rest <;>
          simp [List.mem_cons, hmem, hne]

theorem mem_snd_dictGet (k : Option Int) :
    ∀ (l : List (Option Int × NormalizedRecord)),
      (∀ p ∈ l, (Prod.snd p).customer_id = Prod.fst p) →
      ((l.map Prod.fst).Nodup) →
      ∀ c ∈ l.map Prod.snd, c.customer_id = k → dictGet l k = some c := by
  intro l
  induction l with
  | nil => simp
  | cons p rest ih =>
      obtain ⟨k₀, v₀⟩ := p
      intro hinv hnd c hc hck
      have hv : v₀.customer_id = k₀ := hinv (k₀, v₀) (by simp)
      rcases List.mem_cons.mp hc with rfl | hc'
      · rw [← hck, hv]
        simp [dictGet]
      · have hk : k₀ ≠ k := by
          intro he
          subst he
          have hrest := ih (fun q hq => hinv q (List.mem_cons_of_mem _ hq))
            (List.nodup_cons.mp hnd).2 c hc' hck
          have hmem : k₀ ∈ rest.map Prod.fst := by
            by_contra hnot
            rw [← dictGet_eq_none_iff] at hnot
            rw [hnot] at hrest
            exact Option.noConfusion hrest
          exact absurd hmem (List.nodup_cons.mp hnd).1
        simp only [dictGet, if_neg hk]
        exact ih (fun q hq => hinv q (List.mem_cons_of_mem _ hq))
          (List.nodup_cons.mp hnd).2 c hc' hck

theorem runBest_spec (rng : List String → String) (k : Option Int) :
    ∀ (rest : List RawRecord) (cur : NormalizedRecord),
      (runBest rng k cur rest = cur
        ∧ ∀ x ∈ rest, x.id = k → quality_score_of x ≤ cur.data_quality_score)
      ∨ (∃ pre w post, rest = pre ++ w :: post ∧ w.id = k
          ∧ cur.data_quality_score < quality_score_of w
          ∧ runBest rng k cur rest = transform_customer rng w
          ∧ (∀ x ∈ pre, x.id = k → quality_score_of x < quality_score_of w)
          ∧ (∀ x ∈ post, x.id = k → quality_score_of x ≤ quality_score_of w)) := by
  intro rest
  induction rest with
  | nil =>
      intro cur
      exact Or.inl ⟨rfl, by simp⟩
  | cons r rest ih =>
      intro cur
      by_cases hcond : r.id = k ∧ cur.data_quality_score < quality_score_of r
      · obtain ⟨hid, hlt⟩ := hcond
        rw [show runBest rng k cur (r :: rest)
            = runBest rng k (transform_customer rng r) rest from by
          simp [runBest, hid, hlt]]
        rcases ih (transform_customer rng r) with ⟨heq, hall⟩ |
          ⟨pre, w, post, hsplit, hw, hlt2, heq, hpre, hpost⟩
        · refine Or.inr ⟨[], r, rest, by simp, hid, hlt, heq, by simp, ?_⟩
          intro x hx hxk
          simpa using hall x hx hxk
        · have hrw : quality_score_of r < quality_score_of w := by simpa using hlt2
          refine Or.inr ⟨r :: pre, w, post, by simp [hsplit], hw, ?_, heq, ?_, hpost⟩
          · omega
          · intro x hx hxk
            rcases List.mem_cons.mp hx with rfl | hx'
            · exact hrw
            · exact hpre x hx' hxk
      · rw [show runBest rng k cur (r :: rest) = runBest rng k cur rest from by
          rw [show runBest rng k cur (r :: rest)
              = if r.id = k ∧ cur.data_quality_score < quality_score_of r then
                  runBest rng k (transform_customer rng r) rest
                else runBest rng k cur rest from rfl, if_neg hcond]]
        rcases ih cur with ⟨heq, hall⟩ |
          ⟨pre, w, post, hsplit, hw, hlt2, heq, hpre, hpost⟩
        · refine Or.inl ⟨heq, ?_⟩
          intro x hx hxk
          rcases List.mem_cons.mp hx with rfl | hx'
          · by_contra hgt
            exact hcond ⟨hxk, by omega⟩
          · exact hall x hx' hxk
        · refine Or.inr ⟨r :: pre, w, post, by simp [hsplit], hw, hlt2, heq, ?_, hpost⟩
          intro x hx hxk
          rcases List.mem_cons.mp hx with rfl | hx'
          · have hle : quality_score_of x ≤ cur.data_quality_score := by
              by_contra hgt
              exact hcond ⟨hxk, by omega⟩
            omega
          · exact hpre x hx' hxk

theorem firstEntry_spec (rng : List String → String) (k : Option Int) :
    ∀ (raws : List RawRecord) (c : NormalizedRecord),
      firstEntry rng k raws = some c →
      ∃ pre w post, raws = pre ++ w :: post ∧ w.id = k
        ∧ c = transform_customer rng w
        ∧ (∀ x ∈ pre, x.id = k → quality_score_of x < quality_score_of w)
        ∧ (∀ x ∈ post, x.id = k → quality_score_of x ≤ quality_score_of w) := by
  intro raws
  induction raws with
  | nil =>
      intro c h
      exact absurd h (by simp [firstEntry])
  | cons r rest ih =>
      intro c h
      by_cases hid : r.id = k
      · rw [show firstEntry rng k (r :: rest)
            = some (runBest rng k (transform_customer rng r) rest) from by
          simp [firstEntry, hid]] at h
        have hc : c = runBest rng k (transform_customer rng r) rest :=
          (Option.some.inj h).symm
        rcases runBest_spec rng k rest (transform_customer rng r) with ⟨heq, hall⟩ |
          ⟨pre, w, post, hsplit, hw, hlt, heq, hpre, hpost⟩
        · refine ⟨[], r, rest, by simp, hid, hc.trans heq, by simp, ?_⟩
          intro x hx hxk
          simpa using hall x hx hxk
        · refine ⟨r :: pre, w, post, by simp [hsplit], hw, hc.trans heq, ?_, hpost⟩
          intro x hx hxk
          rcases List.mem_cons.mp hx with rfl | hx'
          · simpa using hlt
          · exact hpre x hx' hxk
      · rw [show firstEntry rng k (r :: rest) = firstEntry rng k rest from by
          simp [firstEntry, hid]] at h
        obtain ⟨pre, w, post, hsplit, hw, hc, hpre, hpost⟩ := ih c h
        refine ⟨r :: pre, w, post, by simp [hsplit], hw, hc, ?_, hpost⟩
        intro x hx hxk
        rcases List.mem_cons.mp hx with rfl | hx'
        · exact absurd hxk hid
        · exact hpre x hx' hxk

/-- The full behaviour of `process_customers` for one key: exactly one output
record per id present in the input, and that record is the transform of the
first input record attaining the maximal quality score for its id. -/
theorem process_customers_spec (rng : List String → String) (raws : List RawRecord)
    (k : Option Int) :
    (List.countP (fun c => c.customer_id = k) (process_customers rng raws)
        = if raws.any (fun r => r.id = k) then 1 else 0)
    ∧ (∀ c ∈ process_customers rng raws, c.customer_id = k →
        ∃ pre w post, raws = pre ++ w :: post ∧ w.id = k
          ∧ c = transform_customer rng w
          ∧ (∀ x ∈ raws, x.id = k → quality_score_of x ≤ quality_score_of w)
          ∧ (∀ x ∈ pre, x.id = k → quality_score_of x < quality_score_of w)) := by
  have hinv := foldl_dedupe_key_inv rng raws [] (by simp)
  have hnd := foldl_dedupe_keys_nodup rng raws [] (by simp)
  constructor
  · rw [show process_customers rng raws
        = (raws.foldl (dedupeStep rng) []).map Prod.snd from rfl]
    rw [countP_snd_assoc k _ hinv hnd]
    have hiff : (k ∈ (raws.foldl (dedupeStep rng) []).map Prod.fst)
        ↔ (raws.any (fun r => r.id = k) = true) := by
      rw [foldl_dedupe_mem_keys rng raws [] k]
      simp [List.any_eq_true]
    by_cases hmem : k ∈ (raws.foldl (dedupeStep rng) []).map Prod.fst
    · rw [if_pos hmem, if_pos (hiff.mp hmem)]
    · rw [if_neg hmem, if_neg (fun h => hmem (hiff.mpr h))]
  · intro c hc hck
    have hget : dictGet (raws.foldl (dedupeStep rng) []) k = some c :=
      mem_snd_dictGet k (raws.foldl (dedupeStep rng) []) hinv hnd c hc hck
    rw [foldl_dedupe_get rng raws [] k] at hget
    have hfe : firstEntry rng k raws = some c := by simpa [dictGet] using hget
    obtain ⟨pre, w, post, hsplit, hw, hcw, hpre, hpost⟩ :=
      firstEntry_spec rng k raws c hfe
    refine ⟨pre, w, post, hsplit, hw, hcw, ?_, hpre⟩
    intro x hx hxk
    rw [hsplit] at hx
    rcases List.mem_append.mp hx with hx' | hx'
    · exact le_of_lt (hpre x hx' hxk)
    · rcases List.mem_cons.mp hx' with rfl | hx''
      · exact le_refl _
      · exact hpost x hx'' hxk

/-- C1: `process_customers` returns exactly one normalized record per
distinct `customer_id` present in the input, and the record retained for an
id is the transform of a record whose quality score is maximal among all
records sharing that id, ties resolved to the first-encountered one (every
earlier record with that id scores strictly lower). -/
theorem dedupe_one_max_first (rng : List String → String) (raws : List RawRecord)
    (k : Option Int) :
    (List.countP (fun c => c.customer_id = k) (process_customers rng raws)
        = if raws.any (fun r => r.id = k) then 1 else 0)
    ∧ (∀ c ∈ process_customers rng raws, c.customer_id = k →
        ∃ pre w post, raws = pre ++ w :: post ∧ w.id = k
          ∧ c = transform_customer rng w
          ∧ (∀ x ∈ raws, x.id = k → quality_score_of x ≤ quality_score_of w)
          ∧ (∀ x ∈ pre, x.id = k → quality_score_of x < quality_score_of w)) :=
  process_customers_spec rng raws k

/-- C10: a raw record without an id is transformed with `customer_id` null,
and all such records collapse under the single dict key null: the output has
at most one null-id record, exactly one when the input has any id-less
record, namely the highest-scoring first-encountered one. -/
theorem dedupe_null_ids (rng : List String → String) (raws : List RawRecord) :
    (∀ raw : RawRecord, raw.id = Option.none →
      (transform_customer rng raw).customer_id = Option.none)
    ∧ (List.countP (fun c => c.customer_id = (Option.none : Option Int))
        (process_customers rng raws) ≤ 1)
    ∧ ((∃ raw ∈ raws, raw.id = Option.none) →
        List.countP (fun c => c.customer_id = (Option.none : Option Int))
          (process_customers rng raws) = 1)
    ∧ (∀ c ∈ process_customers rng raws, c.customer_id = Option.none →
        ∃ pre w post, raws = pre ++ w :: post ∧ w.id = Option.none
          ∧ c = transform_customer rng w
          ∧ (∀ x ∈ raws, x.id = Option.none →
              quality_score_of x ≤ quality_score_of w)
          ∧ (∀ x ∈ pre, x.id = Option.none →
              quality_score_of x < quality_score_of w)) := by
  have hspec := process_customers_spec rng raws (Option.none : Option Int)
  refine ⟨?_, ?_, ?_, hspec.2⟩
  · intro raw hid
    rw [transform_customer_id, hid]
  · rw [hspec.1]
    split <;> omega
  · intro hex
    rw [hspec.1, if_pos ?_]
    simp only [List.any_eq_true, decide_eq_true_eq]
    obtain ⟨raw, hmem, hid⟩ := hex
    exact ⟨raw, hmem, hid⟩

/-! ## Witnesses for the dedupe and scoring claims -/

def rngHead : List String → String := fun l => l.headD "unknown"

def rawDup1 : RawRecord :=
  { id := some 1, first_name := some "John", last_name := some "Doe"
    email := some "" }

def rawDup2 : RawRecord :=
  { id := some 1, first_name := some "John", last_name := some "Doe"
    email := some "john@doe.com" }

/-- Witness for C1 at the repo's duplicate-handling test data: two records
with id 1, the second with the valid email, keep exactly one output record,
the transform of the higher-scoring second record. -/
theorem dedupe_one_max_first_witness :
    (List.countP (fun c => c.customer_id = some 1)
        (process_customers rngHead [rawDup1, rawDup2]) = 1)
    ∧ (∃ pre w post, [rawDup1, rawDup2] = pre ++ w :: post ∧ w.id = some 1
        ∧ transform_customer rngHead rawDup2 = transform_customer rngHead w
        ∧ (∀ x ∈ [rawDup1, rawDup2], x.id = some 1 →
            quality_score_of x ≤ quality_score_of w)
        ∧ (∀ x ∈ pre, x.id = some 1 →
            quality_score_of x < quality_score_of w)) := by
  constructor
  · have h := (dedupe_one_max_first rngHead [rawDup1, rawDup2] (some 1)).1
    rw [if_pos (by decide)] at h
    exact h
  · exact (dedupe_one_max_first rngHead [rawDup1, rawDup2] (some 1)).2
      (transform_customer rngHead rawDup2) (by decide) rfl

def rawNoIdA : RawRecord :=
  { id := Option.none, first_name := some "A", last_name := some "B"
    email := Option.none }

def rawNoIdB : RawRecord :=
  { id := Option.none, first_name := some "C", last_name := some "D"
    email := some "c@d.com" }

/-- Witness for C10: two id-less records collapse to a single null-keyed
output record. -/
theorem dedupe_null_ids_witness :
    (transform_customer rngHead rawNoIdA).customer_id = Option.none
    ∧ List.countP (fun c => c.customer_id = (Option.none : Option Int))
        (process_customers rngHead [rawNoIdA, rawNoIdB]) = 1 :=
  ⟨(dedupe_null_ids rngHead [rawNoIdA, rawNoIdB]).1 rawNoIdA rfl,
   (dedupe_null_ids rngHead [rawNoIdA, rawNoIdB]).2.2.1 ⟨rawNoIdA, by simp, rfl⟩⟩

def rawInvalidEmail : RawRecord :=
  { id := some 2, first_name := some "", last_name := some ""
    email := some "invalidemail" }

/-- Witness for C6 at the repo's scoring test data: an email without `@`
yields domain `"unknown"` and a deduced score of at most 90. -/
theorem quality_score_formula_witness :
    (transform_customer rngHead rawInvalidEmail).email_domain = "unknown"
    ∧ (transform_customer rngHead rawInvalidEmail).data_quality_score ≤ 90 :=
  (quality_score_formula rngHead rawInvalidEmail).2.2.2 "invalidemail" rfl
    (Or.inr (Or.inl (by decide)))
